import Mathlib

/-!
Verification of the douroannotate PDF-annotation tool.

This file gives a shallow embedding of the program's core, translated from
`src/components/PDFViewer.tsx`, `src/app/page.tsx` and `src/types/annotation.ts`:

* the annotation record and the collection operations of the viewer component
  (context-menu creation, the add button, merge-updates, drag-stop updates);
* the screen/logical coordinate transform used by the draggable overlay;
* the export pipeline (page grouping with JavaScript object-key enumeration
  order, page lookup, hex colour decoding, the logical-to-PDF coordinate
  formula, the clamped draw-text command, and the font-fallback choice);
* the session-state codec of `page.tsx`, i.e. the composition
  `encodeURIComponent (JSON.stringify c)` / `JSON.parse (decodeURIComponent s)`.

JavaScript numbers are modelled as exact rationals (the spec itself states the
coordinate laws only up to floating-point tolerance).  The JSON and URI
builtins are modelled at the exact grammar they exchange here: the serializer
follows `JSON.stringify` (fixed insertion-order keys, the standard escape set,
shortest plain-decimal number output), the reader is a recursive-descent
reader for exactly that grammar, returning `none` where `JSON.parse` would
throw or produce a value that is not a collection of records; percent
encoding/decoding follows `encodeURIComponent`/`decodeURIComponent` with
UTF-8 byte escapes.
-/

/-- Decimal digit character, `48 + d` as in JavaScript number printing. -/
def digitChar (d : Nat) : Char := Char.ofNat (48 + d)

/-- Big-endian decimal digits of a natural number, fuel-driven so that it
kernel-reduces; `fuel ≥ n` suffices. -/
def natToCharsAux : Nat → Nat → List Char → List Char
  | 0, _, acc => acc
  | _ + 1, 0, acc => acc
  | fuel + 1, n + 1, acc =>
    natToCharsAux fuel ((n + 1) / 10) (digitChar ((n + 1) % 10) :: acc)

/-- Decimal print of a natural number, as JavaScript `String(n)`. -/
def natToChars (n : Nat) : List Char := if n = 0 then ['0'] else natToCharsAux n n []

/-- Fold decimal digit characters into a number (the reading direction). -/
def parseDigits (acc : Nat) (cs : List Char) : Nat :=
  cs.foldl (fun a c => 10 * a + (c.toNat - 48)) acc

/-- Lowercase hexadecimal digit, used by the JSON `\u00XX` escape. -/
def hexDigitL (d : Nat) : Char :=
  if d < 10 then digitChar d else Char.ofNat (87 + d)

/-- Uppercase hexadecimal digit, used by percent escapes of `encodeURIComponent`. -/
def hexDigitU (d : Nat) : Char :=
  if d < 10 then digitChar d else Char.ofNat (55 + d)

/-- Value of a hexadecimal digit character, either case; `none` otherwise. -/
def hexVal? (c : Char) : Option Nat :=
  if 48 ≤ c.toNat ∧ c.toNat ≤ 57 then some (c.toNat - 48)
  else if 97 ≤ c.toNat ∧ c.toNat ≤ 102 then some (c.toNat - 87)
  else if 65 ≤ c.toNat ∧ c.toNat ≤ 70 then some (c.toNat - 55)
  else none

/-- The annotation record of `src/types/annotation.ts`: an id string, the
display text, the logical page-space position, the point size, the hex colour
string and the 1-based page number.  Numeric fields are exact rationals. -/
structure Annot where
  id : String
  text : String
  x : ℚ
  y : ℚ
  fontSize : ℚ
  color : String
  pageNumber : Int
deriving DecidableEq

/-- Id assigned at creation: `Date.now().toString()` for a creation happening
at millisecond timestamp `now`. -/
def mkAnnotId (now : Nat) : String := String.mk (natToChars now)

/-- Whitespace for the model of JavaScript `String.prototype.trim`. -/
def jsWs (c : Char) : Bool :=
  c.toNat = 32 ∨ c.toNat = 9 ∨ c.toNat = 10 ∨ c.toNat = 13 ∨ c.toNat = 12 ∨ c.toNat = 11

/-- Model of JavaScript `newText.trim()`. -/
def jsTrim (s : String) : String :=
  String.mk (((s.data.dropWhile jsWs).reverse.dropWhile jsWs).reverse)

/-- The placeholder text inserted for blank input (PDFViewer.tsx line 63/83). -/
def placeholderText : String := "テキスト"

/-- `addAnnotation` (PDFViewer.tsx lines 80-93): builds a record with the
current tool state, position fixed at (100, 100), and appends it to the
collection handed to `onAnnotationsChange`.  No validation of any field. -/
def addAnnot (now : Nat) (newText : String) (fontSize : ℚ) (textColor : String)
    (pageNumber : Int) (annots : List Annot) : List Annot :=
  annots ++ [⟨mkAnnotId now,
    (if jsTrim newText = "" then placeholderText else jsTrim newText),
    100, 100, fontSize, textColor, pageNumber⟩]

/-- The record built by `handleContextMenu` (PDFViewer.tsx lines 53-78): the
position is the pointer offset inside the page element divided by the zoom
scale, stored without clamping. -/
def contextMenuAnnot (now : Nat) (clientX clientY rectLeft rectTop scale : ℚ)
    (fontSize : ℚ) (textColor : String) (pageNumber : Int) : Annot :=
  ⟨mkAnnotId now, placeholderText, (clientX - rectLeft) / scale,
   (clientY - rectTop) / scale, fontSize, textColor, pageNumber⟩

/-- `handleContextMenu` appends the freshly built record to the collection. -/
def handleContextMenu (now : Nat) (clientX clientY rectLeft rectTop scale : ℚ)
    (fontSize : ℚ) (textColor : String) (pageNumber : Int)
    (annots : List Annot) : List Annot :=
  annots ++ [contextMenuAnnot now clientX clientY rectLeft rectTop scale
    fontSize textColor pageNumber]

/-- `updateAnnotation` (PDFViewer.tsx lines 95-99): merge an update into the
record whose id matches, leave the others untouched. -/
def updateAnnot (annots : List Annot) (id : String) (f : Annot → Annot) : List Annot :=
  annots.map (fun a => if a.id = id then f a else a)

/-- `deleteAnnotation` (PDFViewer.tsx lines 101-104). -/
def deleteAnnot (annots : List Annot) (id : String) : List Annot :=
  annots.filter (fun a => decide (a.id ≠ id))

/-- Logical-to-screen mapping of the draggable overlay (PDFViewer.tsx line
332): `position = (x * scale, y * scale)`. -/
def screenFromLogical (pos : ℚ × ℚ) (scale : ℚ) : ℚ × ℚ :=
  (pos.1 * scale, pos.2 * scale)

/-- Screen-to-logical mapping applied on drop, division by the zoom scale
(PDFViewer.tsx lines 335-336, before the `Math.max` store clamp). -/
def logicalFromScreen (pos : ℚ × ℚ) (scale : ℚ) : ℚ × ℚ :=
  (pos.1 / scale, pos.2 / scale)

/-- The value actually stored by the `onStop` handler (PDFViewer.tsx lines
333-338): screen-to-logical conversion with the non-negativity clamp. -/
def dragStopPos (dataX dataY scale : ℚ) : ℚ × ℚ :=
  (max 0 (dataX / scale), max 0 (dataY / scale))

/-- The collection after the `onStop` handler ran for annotation `id`. -/
def onStopUpdate (annots : List Annot) (id : String) (dataX dataY scale : ℚ) :
    List Annot :=
  updateAnnot annots id (fun a =>
    { a with x := (dragStopPos dataX dataY scale).1,
             y := (dragStopPos dataX dataY scale).2 })

/-- True page size in points, from `page.getSize()`; also the shape of the
captured logical render dimensions in `pdfDimensions`. -/
structure PageSize where
  width : ℚ
  height : ℚ
deriving DecidableEq

/-- The font resolved by the export pipeline: the custom embedded font bytes on
success, the built-in Helvetica on the fallback path. -/
inductive Font where
  | custom (bytes : List Nat)
  | helvetica
deriving DecidableEq

/-- Font choice of PDFViewer.tsx lines 132-144: try to fetch and embed the
remote Unicode font; on any failure fall back to `StandardFonts.Helvetica`. -/
def chooseFont (fetchEmbed : Except String (List Nat)) : Font :=
  match fetchEmbed with
  | .ok bytes => .custom bytes
  | .error _ => .helvetica

/-- A `page.drawText` call issued by the export pipeline (PDFViewer.tsx lines
179-185): target page, text, position, size, font and decoded colour. -/
structure DrawCmd where
  page : Int
  text : String
  x : ℚ
  y : ℚ
  size : ℚ
  font : Font
  color : Option (ℚ × ℚ × ℚ)
deriving DecidableEq

/-- Replace the font of a draw command, leaving everything else unchanged. -/
def withFont (f : Font) (c : DrawCmd) : DrawCmd := { c with font := f }

/-- Model of JavaScript `parseInt(s, 16)`: the longest hexadecimal digit run at
the front of the string; `none` stands for `NaN`. -/
def parseIntHex (cs : List Char) : Option Nat :=
  let ds := cs.takeWhile (fun c => (hexVal? c).isSome)
  if ds = [] then none
  else some (ds.foldl (fun a c => 16 * a + ((hexVal? c).getD 0)) 0)

/-- Colour decoding of PDFViewer.tsx lines 164-167: drop the `#`, read the
three two-digit hex components, scale each into [0, 1]. -/
def hexColorVal (color : String) : Option (ℚ × ℚ × ℚ) :=
  let h := color.data.drop 1
  match parseIntHex (h.take 2), parseIntHex ((h.drop 2).take 2),
      parseIntHex ((h.drop 4).take 2) with
  | some r, some g, some b => some (((r : ℚ) / 255, (g : ℚ) / 255, (b : ℚ) / 255))
  | _, _, _ => none

/-- The PDF-space coordinates computed at PDFViewer.tsx lines 172-176, from the
captured logical dimensions `pd` and the true page size `pg`:
`pdfX = max(0, x) / pd.width * pg.width` and
`pdfY = pg.height - ((max(0, y) + fontSize) / pd.height) * pg.height`. -/
def pdfCoords (x y fontSize : ℚ) (pd pg : PageSize) : ℚ × ℚ :=
  ((max 0 x) / pd.width * pg.width,
   pg.height - ((max 0 y) + fontSize) / pd.height * pg.height)

/-- The draw-text command issued for one annotation (PDFViewer.tsx lines
179-185): the computed PDF coordinates, each clamped through `Math.max(0, _)`
at the call site. -/
def drawCmdFor (font : Font) (pg pd : PageSize) (p : Int) (a : Annot) : DrawCmd :=
  ⟨p, a.text, max 0 (pdfCoords a.x a.y a.fontSize pd pg).1,
   max 0 (pdfCoords a.x a.y a.fontSize pd pg).2,
   a.fontSize, font, hexColorVal a.color⟩

/-- The page sub-collection for one page number, original order preserved (the
`reduce` grouping of PDFViewer.tsx lines 147-151 pushes in collection order). -/
def groupFor (annots : List Annot) (p : Int) : List Annot :=
  annots.filter (fun a => decide (a.pageNumber = p))

/-- Concatenation-map used for the per-group command emission. -/
def catMap (f : α → List β) : List α → List β
  | [] => []
  | a :: l => f a ++ catMap f l

/-- The distinct page numbers of the collection in the order `Object.entries`
enumerates the groups: ascending numeric order of the integer-like keys. -/
def pageKeys (annots : List Annot) : List Int :=
  List.insertionSort (· ≤ ·) ((annots.map (fun a => a.pageNumber)).dedup)

/-- `pages[parseInt(pageNum) - 1]` of PDFViewer.tsx line 156: `none` when the
index falls outside the page array (including non-positive page numbers). -/
def pageLookup (pages : List PageSize) (p : Int) : Option PageSize :=
  if 1 ≤ p then pages.get? (p - 1).toNat else none

/-- Commands emitted for one page group (PDFViewer.tsx lines 155-190): resolve
the page, `continue` when it does not exist, otherwise use the captured
logical dimensions with the true page size as fallback and draw every
annotation of the group. -/
def cmdsForPage (font : Font) (pages : List PageSize) (dims : Int → Option PageSize)
    (annots : List Annot) (p : Int) : List DrawCmd :=
  match pageLookup pages p with
  | none => []
  | some pg => (groupFor annots p).map (drawCmdFor font pg ((dims p).getD pg) p)

/-- The full sequence of draw-text commands the export pipeline issues, given
the outcome of the font fetch/embed attempt, the collection snapshot, the
document's pages and the captured per-page logical dimensions. -/
def exportCmds (fetchEmbed : Except String (List Nat)) (annots : List Annot)
    (pages : List PageSize) (dims : Int → Option PageSize) : List DrawCmd :=
  catMap (cmdsForPage (chooseFont fetchEmbed) pages dims annots) (pageKeys annots)

/-- JSON string escaping as produced by `JSON.stringify`: quote, backslash, the
short control escapes, `\u00XX` for the remaining control characters, every
other character verbatim. -/
def escapeChar (c : Char) : List Char :=
  if c = '"' then ['\\', '"']
  else if c = '\\' then ['\\', '\\']
  else if c.toNat = 8 then ['\\', 'b']
  else if c.toNat = 9 then ['\\', 't']
  else if c.toNat = 10 then ['\\', 'n']
  else if c.toNat = 12 then ['\\', 'f']
  else if c.toNat = 13 then ['\\', 'r']
  else if c.toNat < 32 then
    ['\\', 'u', '0', '0', hexDigitL (c.toNat / 16), hexDigitL (c.toNat % 16)]
  else [c]

/-- Escape a whole string body. -/
def escapeString (s : List Char) : List Char := catMap escapeChar s

/-- Single-character escapes accepted after a backslash by `JSON.parse`. -/
def unescChar? (c : Char) : Option Char :=
  if c = '"' then some '"'
  else if c = '\\' then some '\\'
  else if c = '/' then some '/'
  else if c = 'b' then some (Char.ofNat 8)
  else if c = 'f' then some (Char.ofNat 12)
  else if c = 'n' then some (Char.ofNat 10)
  else if c = 'r' then some (Char.ofNat 13)
  else if c = 't' then some (Char.ofNat 9)
  else none

/-- JSON string-escape reading, fuel-driven: consume characters up to and
including the closing quote, resolving the escape sequences `JSON.parse`
accepts.  One fuel unit is spent per produced character, so any fuel above the
input length suffices. -/
def parseStrAux : Nat → List Char → Option (List Char × List Char)
  | 0, _ => none
  | _ + 1, [] => none
  | fuel + 1, c :: rest =>
    if c = '"' then some ([], rest)
    else if c = '\\' then
      match rest with
      | [] => none
      | d :: rest₂ =>
        if d = 'u' then
          match rest₂ with
          | h₁ :: h₂ :: h₃ :: h₄ :: rest₃ =>
            match hexVal? h₁, hexVal? h₂, hexVal? h₃, hexVal? h₄ with
            | some v₁, some v₂, some v₃, some v₄ =>
              (parseStrAux fuel rest₃).map
                (fun q => (Char.ofNat (((v₁ * 16 + v₂) * 16 + v₃) * 16 + v₄) :: q.1, q.2))
            | _, _, _, _ => none
          | _ => none
        else
          match unescChar? d with
          | some u => (parseStrAux fuel rest₂).map (fun q => (u :: q.1, q.2))
          | none => none
    else (parseStrAux fuel rest).map (fun q => (c :: q.1, q.2))

/-- JSON string-escape reading with sufficient fuel. -/
def parseStr (cs : List Char) : Option (List Char × List Char) :=
  parseStrAux (cs.length + 1) cs

/-- Unsigned part of the plain-decimal print of `n / 10 ^ e`: integer digits
(zero-padded up to the decimal point when the value is below one), and the `e`
fractional digits when `e ≠ 0`. -/
def decCore (n : Nat) (e : Nat) : List Char :=
  let ds := natToChars n
  if e = 0 then ds
  else
    let pds := List.replicate (e + 1 - ds.length) '0' ++ ds
    pds.take (pds.length - e) ++ '.' :: pds.drop (pds.length - e)

/-- Plain-decimal print of the number `m / 10 ^ e`, as `JSON.stringify` prints
the doubles exchanged here: optional sign, then the unsigned decimal core. -/
def decChars (m : Int) (e : Nat) : List Char :=
  (if m < 0 then ['-'] else []) ++ decCore m.natAbs e

/-- Smallest exponent `e ≤ d` with `d ∣ 10 ^ e`; `none` when the denominator
admits no finite decimal expansion. -/
def decExpOf (d : Nat) : Option Nat :=
  (List.range (d + 1)).find? (fun e => 10 ^ e % d == 0)

/-- Decimal mantissa/exponent representation of a rational, when its reduced
denominator divides a power of ten (every JavaScript double printed by
`JSON.stringify` has such a representation). -/
def ratDec (q : ℚ) : Option (Int × Nat) :=
  (decExpOf q.den).map (fun e => (q.num * ((10 ^ e / q.den : ℕ) : ℤ), e))

/-- Decimal print of a rational number, when representable. -/
def ratDecChars (q : ℚ) : Option (List Char) :=
  (ratDec q).map (fun p => decChars p.1 p.2)

/-- The rational denoted by a read decimal `m / 10 ^ e`. -/
def decToRat (m : Int) (e : Nat) : ℚ := (m : ℚ) / 10 ^ e

/-- Unsigned JSON number reading: integer digits, optional fraction; yields
the unsigned mantissa, the fraction length and the rest of the input. -/
def parseUnsigned (cs : List Char) : Option ((Nat × Nat) × List Char) :=
  let ds := cs.takeWhile Char.isDigit
  let cs₂ := cs.dropWhile Char.isDigit
  if ds = [] then none
  else if cs₂.head? = some '.' then
    let fs := cs₂.tail.takeWhile Char.isDigit
    let cs₃ := cs₂.tail.dropWhile Char.isDigit
    if fs = [] then none
    else some ((parseDigits 0 (ds ++ fs), fs.length), cs₃)
  else some ((parseDigits 0 ds, 0), cs₂)

/-- JSON number reading: optional minus sign, then the unsigned number. -/
def parseNumber (cs : List Char) : Option ((Int × Nat) × List Char) :=
  if cs.head? = some '-' then
    (parseUnsigned cs.tail).map (fun q => ((-(q.1.1 : Int), q.1.2), q.2))
  else
    (parseUnsigned cs).map (fun q => (((q.1.1 : Int), q.1.2), q.2))

/-- A list that cannot extend a number literal: empty, or starting with a
character that is neither a digit nor a decimal point. -/
def numBoundary : List Char → Prop
  | [] => True
  | c :: _ => c.isDigit = false ∧ c ≠ '.'

/-- Fixed literal pieces of the serialized record, in the key insertion order
`JSON.stringify` uses for the records built by the viewer. -/
def litId : List Char := ("\x7b\"id\":\"").data

/-- Literal between the id value and the text value. -/
def litText : List Char := (",\"text\":\"").data

/-- Literal before the x value. -/
def litX : List Char := (",\"x\":").data

/-- Literal before the y value. -/
def litY : List Char := (",\"y\":").data

/-- Literal before the fontSize value. -/
def litFS : List Char := (",\"fontSize\":").data

/-- Literal before the color value. -/
def litColor : List Char := (",\"color\":\"").data

/-- Literal before the pageNumber value. -/
def litPage : List Char := (",\"pageNumber\":").data

/-- Serialization of one record, `JSON.stringify` shape; `none` when a numeric
field has no finite decimal print (impossible for double-valued fields). -/
def strAnnot (a : Annot) : Option (List Char) :=
  (ratDecChars a.x).bind fun xs =>
  (ratDecChars a.y).bind fun ys =>
  (ratDecChars a.fontSize).bind fun fss =>
  some (litId ++ (escapeString a.id.data ++ ('"' :: (litText ++
    (escapeString a.text.data ++ ('"' :: (litX ++ (xs ++ (litY ++ (ys ++
    (litFS ++ (fss ++ (litColor ++ (escapeString a.color.data ++ ('"' :: (litPage ++
    (decChars a.pageNumber 0 ++ ['\x7d'])))))))))))))))))

/-- Comma-separated serialization of the collection body. -/
def strList : List Annot → Option (List Char)
  | [] => some []
  | [a] => strAnnot a
  | a :: rest =>
    (strAnnot a).bind fun x =>
    (strList rest).bind fun r =>
    some (x ++ ',' :: r)

/-- `JSON.stringify` of the whole collection: the body in brackets. -/
def encodeAnnots (l : List Annot) : Option (List Char) :=
  (strList l).map (fun body => '[' :: body ++ [']'])

/-- Expect a fixed literal at the front of the input. -/
def expectLit : List Char → List Char → Option (List Char)
  | [], cs => some cs
  | l :: ls, c :: cs => if c = l then expectLit ls cs else none
  | _ :: _, [] => none

/-- Read the `id` and `text` fields of one serialized record. -/
def parseIdText (cs₀ : List Char) : Option ((String × String) × List Char) :=
  (expectLit litId cs₀).bind fun s₁ =>
  (parseStr s₁).bind fun idp =>
  (expectLit litText idp.2).bind fun s₂ =>
  (parseStr s₂).bind fun tp =>
  some ((String.mk idp.1, String.mk tp.1), tp.2)

/-- Read the three numeric fields `x`, `y`, `fontSize` of one record. -/
def parseXYF (cs₀ : List Char) : Option ((ℚ × ℚ × ℚ) × List Char) :=
  (expectLit litX cs₀).bind fun s₃ =>
  (parseNumber s₃).bind fun xp =>
  (expectLit litY xp.2).bind fun s₄ =>
  (parseNumber s₄).bind fun yp =>
  (expectLit litFS yp.2).bind fun s₅ =>
  (parseNumber s₅).bind fun fp =>
  some ((decToRat xp.1.1 xp.1.2, decToRat yp.1.1 yp.1.2, decToRat fp.1.1 fp.1.2), fp.2)

/-- Read the `color` and `pageNumber` fields and the closing brace of one
record.  The page number is required to be an integer literal, matching the
record type of `src/types/annotation.ts`. -/
def parseColorPage (cs₀ : List Char) : Option ((String × Int) × List Char) :=
  (expectLit litColor cs₀).bind fun s₆ =>
  (parseStr s₆).bind fun cp =>
  (expectLit litPage cp.2).bind fun s₇ =>
  (parseNumber s₇).bind fun pp =>
  match pp.2 with
  | '\x7d' :: rest =>
    if pp.1.2 = 0 then some ((String.mk cp.1, pp.1.1), rest) else none
  | _ => none

/-- Read one full serialized record. -/
def parseAnnot (cs₀ : List Char) : Option (Annot × List Char) :=
  (parseIdText cs₀).bind fun itp =>
  (parseXYF itp.2).bind fun np =>
  (parseColorPage np.2).bind fun cpp =>
  some (⟨itp.1.1, itp.1.2, np.1.1, np.1.2.1, np.1.2.2, cpp.1.1, cpp.1.2⟩, cpp.2)

/-- Read the comma-separated record sequence up to the closing bracket. -/
def parseAnnotsAux : Nat → List Char → Option (List Annot × List Char)
  | 0, _ => none
  | fuel + 1, cs =>
    (parseAnnot cs).bind fun ap =>
    match ap.2 with
    | ']' :: rest => some ([ap.1], rest)
    | ',' :: rest =>
      (parseAnnotsAux fuel rest).bind fun lp => some (ap.1 :: lp.1, lp.2)
    | _ => none

/-- Model of `JSON.parse` restricted to the wire shape of the `annotations`
query parameter: `none` where `JSON.parse` throws on malformed input, and also
where the parsed value is not a collection of the record shape (the original
code would store such a value untyped; the claims here only concern
collections). -/
def parseAnnots (cs : List Char) : Option (List Annot) :=
  match cs with
  | '[' :: ']' :: rest => if rest = [] then some [] else none
  | '[' :: rest =>
    match parseAnnotsAux (rest.length + 1) rest with
    | some (l, []) => some l
    | _ => none
  | _ => none

/-- Characters `encodeURIComponent` leaves unescaped: letters, digits and
`- _ . ! ~ * ' ( )`. -/
def uriUnres (c : Char) : Bool :=
  (65 ≤ c.toNat ∧ c.toNat ≤ 90) ∨ (97 ≤ c.toNat ∧ c.toNat ≤ 122) ∨
  (48 ≤ c.toNat ∧ c.toNat ≤ 57) ∨
  c.toNat = 45 ∨ c.toNat = 95 ∨ c.toNat = 46 ∨ c.toNat = 33 ∨
  c.toNat = 126 ∨ c.toNat = 42 ∨ c.toNat = 39 ∨ c.toNat = 40 ∨ c.toNat = 41

/-- UTF-8 bytes of a character. -/
def utf8Bytes (c : Char) : List Nat :=
  let v := c.toNat
  if v < 128 then [v]
  else if v < 2048 then [192 + v / 64, 128 + v % 64]
  else if v < 65536 then [224 + v / 4096, 128 + v / 64 % 64, 128 + v % 64]
  else [240 + v / 262144, 128 + v / 4096 % 64, 128 + v / 64 % 64, 128 + v % 64]

/-- Percent escape of one byte, uppercase hex as `encodeURIComponent` emits. -/
def pctByte (b : Nat) : List Char := ['%', hexDigitU (b / 16), hexDigitU (b % 16)]

/-- `encodeURIComponent` on one character. -/
def uriEncodeChar (c : Char) : List Char :=
  if uriUnres c then [c] else catMap pctByte (utf8Bytes c)

/-- Model of `encodeURIComponent`. -/
def uriEncode (s : List Char) : List Char := catMap uriEncodeChar s

/-- Read one percent escape: `%` and two hexadecimal digits. -/
def readPct : List Char → Option (Nat × List Char)
  | '%' :: h₁ :: h₂ :: rest =>
    match hexVal? h₁, hexVal? h₂ with
    | some v₁, some v₂ => some (v₁ * 16 + v₂, rest)
    | _, _ => none
  | _ => none

/-- Model of `decodeURIComponent`: percent escapes are decoded as UTF-8 byte
sequences (continuation bytes also percent-escaped), with strict validity
checks — stray or truncated escapes, bad continuation bytes, overlong forms
and surrogate code points all throw `URIError`, modelled as `none`. -/
def uriDecodeAux : Nat → List Char → Option (List Char)
  | 0, _ => none
  | _ + 1, [] => some []
  | fuel + 1, c :: rest =>
    if c = '%' then
      (readPct (c :: rest)).bind fun p₁ =>
      if p₁.1 < 128 then
        (uriDecodeAux fuel p₁.2).map fun tail => Char.ofNat p₁.1 :: tail
      else if p₁.1 < 192 then none
      else if p₁.1 < 224 then
        (readPct p₁.2).bind fun p₂ =>
        if 128 ≤ p₂.1 ∧ p₂.1 < 192 then
          let v := (p₁.1 - 192) * 64 + (p₂.1 - 128)
          if 128 ≤ v then
            (uriDecodeAux fuel p₂.2).map fun tail => Char.ofNat v :: tail
          else none
        else none
      else if p₁.1 < 240 then
        (readPct p₁.2).bind fun p₂ =>
        (readPct p₂.2).bind fun p₃ =>
        if (128 ≤ p₂.1 ∧ p₂.1 < 192) ∧ (128 ≤ p₃.1 ∧ p₃.1 < 192) then
          let v := (p₁.1 - 224) * 4096 + (p₂.1 - 128) * 64 + (p₃.1 - 128)
          if 2048 ≤ v ∧ (v < 55296 ∨ 57344 ≤ v) then
            (uriDecodeAux fuel p₃.2).map fun tail => Char.ofNat v :: tail
          else none
        else none
      else if p₁.1 < 248 then
        (readPct p₁.2).bind fun p₂ =>
        (readPct p₂.2).bind fun p₃ =>
        (readPct p₃.2).bind fun p₄ =>
        if (128 ≤ p₂.1 ∧ p₂.1 < 192) ∧ (128 ≤ p₃.1 ∧ p₃.1 < 192) ∧ (128 ≤ p₄.1 ∧ p₄.1 < 192) then
          let v := (p₁.1 - 240) * 262144 + (p₂.1 - 128) * 4096 + (p₃.1 - 128) * 64 + (p₄.1 - 128)
          if 65536 ≤ v ∧ v ≤ 1114111 then
            (uriDecodeAux fuel p₄.2).map fun tail => Char.ofNat v :: tail
          else none
        else none
      else none
    else
      (uriDecodeAux fuel rest).map fun tail => c :: tail

/-- Model of `decodeURIComponent`. -/
def uriDecode (cs : List Char) : Option (List Char) := uriDecodeAux (cs.length + 1) cs

/-- `handleAnnotationsChange` serialization (page.tsx lines 39-44):
`encodeURIComponent(JSON.stringify(newAnnotations))`. -/
def encodeParam (l : List Annot) : Option (List Char) :=
  (encodeAnnots l).map uriEncode

/-- The collection obtained from the `annotations` query parameter (page.tsx
lines 24-32): `JSON.parse(decodeURIComponent(value))` inside a try/catch whose
failure path leaves the initial empty collection in place. -/
def decodeParam (s : String) : List Annot :=
  match uriDecode s.data with
  | none => []
  | some cs =>
    match parseAnnots cs with
    | none => []
    | some l => l

/-! ## Digit printing and reading -/

theorem digitChar_toNat (d : Nat) (h : d < 10) : (digitChar d).toNat = 48 + d := by
  interval_cases d <;> decide

theorem digitChar_isDigit (d : Nat) (h : d < 10) : (digitChar d).isDigit = true := by
  interval_cases d <;> decide

theorem hexVal?_hexDigitL (d : Nat) (h : d < 16) : hexVal? (hexDigitL d) = some d := by
  interval_cases d <;> decide

theorem hexVal?_hexDigitU (d : Nat) (h : d < 16) : hexVal? (hexDigitU d) = some d := by
  interval_cases d <;> decide

theorem natToCharsAux_eq (n : Nat) : ∀ fuel acc, n ≤ fuel →
    natToCharsAux fuel n acc = ((Nat.digits 10 n).map digitChar).reverse ++ acc := by
  induction n using Nat.strong_induction_on with
  | _ n ih =>
    intro fuel acc hf
    match n, fuel with
    | 0, 0 => simp [natToCharsAux]
    | 0, f + 1 => simp [natToCharsAux]
    | n + 1, f + 1 =>
      rw [natToCharsAux]
      have hlt : (n + 1) / 10 < n + 1 := Nat.div_lt_self (Nat.succ_pos n) (by norm_num)
      rw [ih ((n + 1) / 10) hlt f _ (by omega)]
      rw [Nat.digits_def' (by norm_num : (1 : Nat) < 10) (Nat.succ_pos n)]
      simp

theorem natToChars_eq (n : Nat) (h : n ≠ 0) :
    natToChars n = ((Nat.digits 10 n).map digitChar).reverse := by
  rw [natToChars, if_neg h, natToCharsAux_eq n n [] le_rfl, List.append_nil]

theorem natToChars_ne_nil (n : Nat) : natToChars n ≠ [] := by
  by_cases h : n = 0
  · subst h; decide
  · rw [natToChars_eq n h]
    simp [Nat.digits_ne_nil_iff_ne_zero, h]

theorem natToChars_isDigit (n : Nat) : ∀ c ∈ natToChars n, c.isDigit = true := by
  by_cases h : n = 0
  · subst h; decide
  · rw [natToChars_eq n h]
    intro c hc
    simp only [List.mem_reverse, List.mem_map] at hc
    obtain ⟨d, hd, rfl⟩ := hc
    exact digitChar_isDigit d (Nat.digits_lt_base (by norm_num) hd)

theorem parseDigits_snoc (acc : Nat) (l : List Char) (c : Char) :
    parseDigits acc (l ++ [c]) = 10 * parseDigits acc l + (c.toNat - 48) := by
  simp [parseDigits, List.foldl_append]

theorem parseDigits_revMap (ds : List Nat) (h : ∀ d ∈ ds, d < 10) : ∀ acc,
    parseDigits acc ((ds.map digitChar).reverse) = acc * 10 ^ ds.length + Nat.ofDigits 10 ds := by
  induction ds with
  | nil => intro acc; simp [parseDigits, Nat.ofDigits_nil]
  | cons d t ih =>
    intro acc
    simp only [List.map_cons, List.reverse_cons]
    rw [parseDigits_snoc]
    rw [ih (fun x hx => h x (List.mem_cons_of_mem d hx)) acc]
    rw [digitChar_toNat d (h d (List.mem_cons_self d t))]
    rw [Nat.ofDigits_cons, List.length_cons, pow_succ]
    ring_nf
    omega

theorem parseDigits_natToChars (n : Nat) : parseDigits 0 (natToChars n) = n := by
  by_cases h : n = 0
  · subst h; decide
  · rw [natToChars_eq n h,
      parseDigits_revMap _ (fun d hd => Nat.digits_lt_base (by norm_num) hd) 0,
      Nat.ofDigits_digits]
    omega

theorem natToChars_inj (a b : Nat) (h : natToChars a = natToChars b) : a = b := by
  have := parseDigits_natToChars a
  rw [h, parseDigits_natToChars b] at this
  omega

theorem mkAnnotId_inj (a b : Nat) (h : mkAnnotId a = mkAnnotId b) : a = b := by
  apply natToChars_inj
  simpa [mkAnnotId] using congrArg String.data h

/-! ## Number print/read round trip -/

theorem takeWhile_all_append (p : Char → Bool) (l r : List Char)
    (hl : ∀ c ∈ l, p c = true) (hr : ∀ c, r.head? = some c → p c = false) :
    (l ++ r).takeWhile p = l ∧ (l ++ r).dropWhile p = r := by
  induction l with
  | nil =>
    simp only [List.nil_append]
    cases r with
    | nil => simp
    | cons c t =>
      have := hr c rfl
      simp [List.takeWhile_cons, List.dropWhile_cons, this]
  | cons c l ih =>
    have hc := hl c (List.mem_cons_self c l)
    have h := ih (fun x hx => hl x (List.mem_cons_of_mem c hx))
    simp [List.takeWhile_cons, List.dropWhile_cons, hc, h.1, h.2]

theorem parseDigits_replicate_zero (z : Nat) (t : List Char) :
    parseDigits 0 (List.replicate z '0' ++ t) = parseDigits 0 t := by
  induction z with
  | zero => simp
  | succ n ih =>
    have h0 : 10 * 0 + ('0'.toNat - 48) = 0 := by decide
    simp only [parseDigits] at ih ⊢
    simpa [List.replicate_succ, List.foldl_cons, h0] using ih

theorem numBoundary_head (r : List Char) (hr : numBoundary r) :
    ∀ c, r.head? = some c → Char.isDigit c = false := by
  intro c hc
  cases r with
  | nil => simp at hc
  | cons x t => simp at hc; exact hc ▸ hr.1

theorem numBoundary_dot (r : List Char) (hr : numBoundary r) : ¬(r.head? = some '.') := by
  intro hc
  cases r with
  | nil => simp at hc
  | cons x t => simp at hc; exact hr.2 hc

theorem parseUnsigned_nofrac (ds r : List Char) (hds : ∀ c ∈ ds, c.isDigit = true)
    (hne : ds ≠ []) (hr : numBoundary r) :
    parseUnsigned (ds ++ r) = some ((parseDigits 0 ds, 0), r) := by
  unfold parseUnsigned
  have h := takeWhile_all_append Char.isDigit ds r hds (numBoundary_head r hr)
  simp only [h.1, h.2]
  rw [if_neg hne, if_neg (numBoundary_dot r hr)]

theorem parseUnsigned_frac (ds fs r : List Char) (hds : ∀ c ∈ ds, c.isDigit = true)
    (hfs : ∀ c ∈ fs, c.isDigit = true) (hdne : ds ≠ []) (hfne : fs ≠ [])
    (hr : numBoundary r) :
    parseUnsigned (ds ++ '.' :: (fs ++ r)) = some ((parseDigits 0 (ds ++ fs), fs.length), r) := by
  unfold parseUnsigned
  have h1 := takeWhile_all_append Char.isDigit ds ('.' :: (fs ++ r)) hds
    (by intro c hc; simp at hc; subst hc; decide)
  simp only [h1.1, h1.2]
  rw [if_neg hdne]
  simp only [List.head?_cons, if_pos rfl, List.tail_cons]
  have h2 := takeWhile_all_append Char.isDigit fs r hfs (numBoundary_head r hr)
  simp only [h2.1, h2.2]
  rw [if_neg hfne, if_pos trivial]

theorem decCore_eq_nofrac (n : Nat) : decCore n 0 = natToChars n := by
  simp [decCore]

theorem decCore_eq_frac (n e : Nat) (he : e ≠ 0) :
    ∃ ds fs : List Char, decCore n e = ds ++ '.' :: fs ∧
      (∀ c ∈ ds, c.isDigit = true) ∧ (∀ c ∈ fs, c.isDigit = true) ∧
      ds ≠ [] ∧ fs ≠ [] ∧ parseDigits 0 (ds ++ fs) = n ∧ fs.length = e := by
  have hL : 1 ≤ (natToChars n).length := List.length_pos.mpr (natToChars_ne_nil n)
  have hlen : (List.replicate (e + 1 - (natToChars n).length) '0' ++ natToChars n).length
      = (e + 1 - (natToChars n).length) + (natToChars n).length := by simp
  have hge : e + 1 ≤ (List.replicate (e + 1 - (natToChars n).length) '0' ++ natToChars n).length := by
    omega
  have hpds_digit : ∀ c ∈ List.replicate (e + 1 - (natToChars n).length) '0' ++ natToChars n,
      c.isDigit = true := by
    intro c hc
    rcases List.mem_append.mp hc with h | h
    · rw [List.eq_of_mem_replicate h]; decide
    · exact natToChars_isDigit n c h
  refine ⟨(List.replicate (e + 1 - (natToChars n).length) '0' ++ natToChars n).take
      ((List.replicate (e + 1 - (natToChars n).length) '0' ++ natToChars n).length - e),
    (List.replicate (e + 1 - (natToChars n).length) '0' ++ natToChars n).drop
      ((List.replicate (e + 1 - (natToChars n).length) '0' ++ natToChars n).length - e),
    ?_, ?_, ?_, ?_, ?_, ?_, ?_⟩
  · rw [decCore, if_neg he]
  · exact fun c hc => hpds_digit c (List.mem_of_mem_take hc)
  · exact fun c hc => hpds_digit c (List.mem_of_mem_drop hc)
  · intro hnil
    have := congrArg List.length hnil
    simp only [List.length_take, List.length_nil] at this
    omega
  · intro hnil
    have := congrArg List.length hnil
    simp only [List.length_drop, List.length_nil] at this
    omega
  · rw [List.take_append_drop, parseDigits_replicate_zero, parseDigits_natToChars]
  · simp only [List.length_drop]
    omega

theorem parseUnsigned_decCore (n e : Nat) (r : List Char) (hr : numBoundary r) :
    parseUnsigned (decCore n e ++ r) = some ((n, e), r) := by
  by_cases he : e = 0
  · subst he
    rw [decCore_eq_nofrac]
    rw [parseUnsigned_nofrac (natToChars n) r (natToChars_isDigit n) (natToChars_ne_nil n) hr]
    rw [parseDigits_natToChars]
  · obtain ⟨ds, fs, heq, hds, hfs, hdne, hfne, hval, hlen⟩ := decCore_eq_frac n e he
    rw [heq]
    have : (ds ++ '.' :: fs) ++ r = ds ++ '.' :: (fs ++ r) := by simp
    rw [this, parseUnsigned_frac ds fs r hds hfs hdne hfne hr, hval, hlen]

theorem decCore_head_digit (n e : Nat) :
    ∃ c t, decCore n e = c :: t ∧ c.isDigit = true := by
  by_cases he : e = 0
  · subst he
    rw [decCore_eq_nofrac]
    cases hnc : natToChars n with
    | nil => exact absurd hnc (natToChars_ne_nil n)
    | cons c t =>
      exact ⟨c, t, rfl, natToChars_isDigit n c (hnc ▸ List.mem_cons_self c t)⟩
  · obtain ⟨ds, fs, heq, hds, _, hdne, _, _, _⟩ := decCore_eq_frac n e he
    cases hd : ds with
    | nil => exact absurd hd hdne
    | cons c t =>
      refine ⟨c, t ++ '.' :: fs, ?_, hds c (hd ▸ List.mem_cons_self c t)⟩
      rw [heq, hd]
      simp

theorem parseNumber_decChars (m : Int) (e : Nat) (r : List Char) (hr : numBoundary r) :
    parseNumber (decChars m e ++ r) = some ((m, e), r) := by
  unfold decChars parseNumber
  by_cases hm : m < 0
  · rw [if_pos hm]
    simp only [List.cons_append, List.nil_append, List.head?_cons, if_pos rfl, List.tail_cons]
    rw [parseUnsigned_decCore m.natAbs e r hr]
    have h : -(m.natAbs : Int) = m := by omega
    simp only [Option.map]
    rw [h, if_pos trivial]
  · rw [if_neg hm]
    simp only [List.nil_append]
    obtain ⟨c, t, hct, hdig⟩ := decCore_head_digit m.natAbs e
    have hne : ¬((decCore m.natAbs e ++ r).head? = some '-') := by
      rw [hct]
      simp only [List.cons_append, List.head?_cons, Option.some.injEq]
      intro h
      rw [h] at hdig
      exact absurd hdig (by decide)
    rw [if_neg hne]
    rw [parseUnsigned_decCore m.natAbs e r hr]
    have h : (m.natAbs : Int) = m := by omega
    simp only [Option.map]
    rw [h]

/-! ## Decimal representation of rationals -/

theorem decExpOf_dvd (d e : Nat) (h : decExpOf d = some e) : d ∣ 10 ^ e := by
  unfold decExpOf at h
  have hp := List.find?_some h
  simp only [beq_iff_eq] at hp
  exact Nat.dvd_of_mod_eq_zero hp

theorem ratDec_val (q : ℚ) (m : Int) (e : Nat) (h : ratDec q = some (m, e)) :
    decToRat m e = q := by
  unfold ratDec at h
  cases hd : decExpOf q.den with
  | none => rw [hd] at h; simp at h
  | some e' =>
    rw [hd] at h
    simp only [Option.map, Option.some.injEq, Prod.mk.injEq] at h
    obtain ⟨hm, rfl⟩ := h
    have hdvd := decExpOf_dvd q.den e' hd
    subst hm
    unfold decToRat
    have hden_pos : 0 < q.den := q.den_pos
    have hk_pos : 0 < 10 ^ e' / q.den :=
      Nat.div_pos (Nat.le_of_dvd (Nat.pos_pow_of_pos e' (by norm_num)) hdvd) hden_pos
    have hkne : ((10 ^ e' / q.den : ℕ) : ℚ) ≠ 0 := Nat.cast_ne_zero.mpr (by omega)
    have h10 : ((10 : ℚ)) ^ e' = ((10 ^ e' / q.den : ℕ) : ℚ) * (q.den : ℚ) := by
      rw [← Nat.cast_mul, Nat.div_mul_cancel hdvd]
      push_cast
      ring
    rw [Int.cast_mul, Int.cast_natCast]
    rw [h10, mul_comm ((10 ^ e' / q.den : ℕ) : ℚ) (q.den : ℚ)]
    rw [mul_div_mul_right _ _ hkne]
    exact Rat.num_div_den q

/-! ## String escape round trip -/

theorem escapeChar_length_pos (c : Char) : 1 ≤ (escapeChar c).length := by
  unfold escapeChar
  repeat' split
  all_goals simp

theorem escapeString_cons (c : Char) (t : List Char) :
    escapeString (c :: t) = escapeChar c ++ escapeString t := rfl

theorem escapeString_length_ge (s : List Char) : s.length ≤ (escapeString s).length := by
  induction s with
  | nil => simp [escapeString, catMap]
  | cons c t ih =>
    rw [escapeString_cons]
    have := escapeChar_length_pos c
    simp only [List.length_append, List.length_cons]
    omega

theorem parseStrAux_escape (s : List Char) : ∀ fuel r,
    parseStrAux (fuel + s.length + 1) (escapeString s ++ '"' :: r) = some (s, r) := by
  induction s with
  | nil =>
    intro fuel r
    simp [escapeString, catMap, parseStrAux]
  | cons c t ih =>
    intro fuel r
    rw [escapeString_cons, List.append_assoc]
    rw [show fuel + (c :: t).length + 1 = (fuel + t.length + 1) + 1 by simp; omega]
    by_cases h1 : c = '"'
    · subst h1
      rw [show escapeChar '"' = ['\\', '"'] from rfl]
      simp only [List.cons_append, List.nil_append]
      simp only [parseStrAux, unescChar?]
      norm_num
      rw [ih fuel r]
      rfl
    · by_cases h2 : c = '\\'
      · subst h2
        rw [show escapeChar '\\' = ['\\', '\\'] from rfl]
        simp only [List.cons_append, List.nil_append]
        simp only [parseStrAux, unescChar?]
        norm_num
        rw [ih fuel r]
        rfl
      · by_cases h3 : c.toNat = 8
        · rw [show escapeChar c = ['\\', 'b'] by rw [escapeChar, if_neg h1, if_neg h2, if_pos h3]]
          simp only [List.cons_append, List.nil_append]
          simp only [parseStrAux, unescChar?]
          norm_num
          rw [ih fuel r]
          have hcc : Char.ofNat 8 = c := by
            rw [← h3, Char.ofNat_toNat]
          exact congrArg (fun z => some (z :: t, r)) hcc
        · by_cases h4 : c.toNat = 9
          · rw [show escapeChar c = ['\\', 't'] by
              rw [escapeChar, if_neg h1, if_neg h2, if_neg h3, if_pos h4]]
            simp only [List.cons_append, List.nil_append]
            simp only [parseStrAux, unescChar?]
            norm_num
            rw [ih fuel r]
            have hcc : Char.ofNat 9 = c := by rw [← h4, Char.ofNat_toNat]
            exact congrArg (fun z => some (z :: t, r)) hcc
          · by_cases h5 : c.toNat = 10
            · rw [show escapeChar c = ['\\', 'n'] by
                rw [escapeChar, if_neg h1, if_neg h2, if_neg h3, if_neg h4, if_pos h5]]
              simp only [List.cons_append, List.nil_append]
              simp only [parseStrAux, unescChar?]
              norm_num
              rw [ih fuel r]
              have hcc : Char.ofNat 10 = c := by rw [← h5, Char.ofNat_toNat]
              exact congrArg (fun z => some (z :: t, r)) hcc
            · by_cases h6 : c.toNat = 12
              · rw [show escapeChar c = ['\\', 'f'] by
                  rw [escapeChar, if_neg h1, if_neg h2, if_neg h3, if_neg h4, if_neg h5,
                    if_pos h6]]
                simp only [List.cons_append, List.nil_append]
                simp only [parseStrAux, unescChar?]
                norm_num
                rw [ih fuel r]
                have hcc : Char.ofNat 12 = c := by rw [← h6, Char.ofNat_toNat]
                exact congrArg (fun z => some (z :: t, r)) hcc
              · by_cases h7 : c.toNat = 13
                · rw [show escapeChar c = ['\\', 'r'] by
                    rw [escapeChar, if_neg h1, if_neg h2, if_neg h3, if_neg h4, if_neg h5,
                      if_neg h6, if_pos h7]]
                  simp only [List.cons_append, List.nil_append]
                  simp only [parseStrAux, unescChar?]
                  norm_num
                  rw [ih fuel r]
                  have hcc : Char.ofNat 13 = c := by rw [← h7, Char.ofNat_toNat]
                  exact congrArg (fun z => some (z :: t, r)) hcc
                · by_cases h8 : c.toNat < 32
                  · rw [show escapeChar c
                        = ['\\', 'u', '0', '0', hexDigitL (c.toNat / 16), hexDigitL (c.toNat % 16)] by
                      rw [escapeChar, if_neg h1, if_neg h2, if_neg h3, if_neg h4, if_neg h5,
                        if_neg h6, if_neg h7, if_pos h8]]
                    simp only [List.cons_append, List.nil_append]
                    simp only [parseStrAux]
                    norm_num
                    rw [hexVal?_hexDigitL (c.toNat / 16) (by omega),
                      hexVal?_hexDigitL (c.toNat % 16) (by omega)]
                    rw [show hexVal? '0' = some 0 from by decide]
                    simp only []
                    rw [ih fuel r]
                    have hcc : Char.ofNat (((0 * 16 + 0) * 16 + c.toNat / 16) * 16
                        + c.toNat % 16) = c := by
                      rw [show ((0 * 16 + 0) * 16 + c.toNat / 16) * 16 + c.toNat % 16
                          = c.toNat from by omega,
                        Char.ofNat_toNat]
                    exact congrArg (fun z => some (z :: t, r)) hcc
                  · rw [show escapeChar c = [c] by
                      rw [escapeChar, if_neg h1, if_neg h2, if_neg h3, if_neg h4, if_neg h5,
                        if_neg h6, if_neg h7, if_neg h8]]
                    simp only [List.cons_append, List.nil_append]
                    simp only [parseStrAux]
                    rw [if_neg h1, if_neg h2]
                    rw [ih fuel r]
                    rfl

theorem parseStr_escape (s r : List Char) :
    parseStr (escapeString s ++ '"' :: r) = some (s, r) := by
  unfold parseStr
  rw [show (escapeString s ++ '"' :: r).length + 1
      = ((escapeString s).length - s.length + r.length + 1) + s.length + 1 by
    have := escapeString_length_ge s
    simp only [List.length_append, List.length_cons]
    omega]
  exact parseStrAux_escape s _ r

/-! ## Record serialization round trip -/

theorem expectLit_append (lit r : List Char) : expectLit lit (lit ++ r) = some r := by
  induction lit with
  | nil => rfl
  | cons c t ih => simp [expectLit, ih]

theorem numBoundary_comma (X : List Char) : numBoundary (',' :: X) := ⟨by decide, by decide⟩

theorem numBoundary_brace (X : List Char) : numBoundary ('\x7d' :: X) := ⟨by decide, by decide⟩

theorem numBoundary_litY (X : List Char) : numBoundary (litY ++ X) := numBoundary_comma _

theorem numBoundary_litFS (X : List Char) : numBoundary (litFS ++ X) := numBoundary_comma _

theorem numBoundary_litColor (X : List Char) : numBoundary (litColor ++ X) := numBoundary_comma _

theorem strAnnot_eq (a : Annot) (cs : List Char) (h : strAnnot a = some cs) :
    ∃ px py pf : Int × Nat,
      ratDec a.x = some px ∧ ratDec a.y = some py ∧ ratDec a.fontSize = some pf ∧
      cs = litId ++ (escapeString a.id.data ++ ('"' :: (litText ++ (escapeString a.text.data ++
        ('"' :: (litX ++ (decChars px.1 px.2 ++ (litY ++ (decChars py.1 py.2 ++
        (litFS ++ (decChars pf.1 pf.2 ++ (litColor ++ (escapeString a.color.data ++
        ('"' :: (litPage ++ (decChars a.pageNumber 0 ++ ['\x7d'])))))))))))))))) := by
  unfold strAnnot ratDecChars at h
  cases hx : ratDec a.x with
  | none => rw [hx] at h; simp at h
  | some px =>
    cases hy : ratDec a.y with
    | none => rw [hx, hy] at h; simp at h
    | some py =>
      cases hf : ratDec a.fontSize with
      | none => rw [hx, hy, hf] at h; simp at h
      | some pf =>
        rw [hx, hy, hf] at h
        simp only [Option.map, Option.some_bind, Option.some.injEq, pure] at h
        exact ⟨px, py, pf, rfl, rfl, rfl, h.symm⟩

theorem parseAnnot_strAnnot (a : Annot) (cs r : List Char) (h : strAnnot a = some cs) :
    parseAnnot (cs ++ r) = some (a, r) := by
  obtain ⟨px, py, pf, hx, hy, hf, hcs⟩ := strAnnot_eq a cs h
  subst hcs
  simp only [List.append_assoc, List.cons_append, List.nil_append]
  unfold parseAnnot parseIdText parseXYF parseColorPage
  rw [expectLit_append]
  simp only [Option.some_bind]
  rw [parseStr_escape]
  simp only [Option.some_bind]
  rw [expectLit_append]
  simp only [Option.some_bind]
  rw [parseStr_escape]
  simp only [Option.some_bind]
  rw [expectLit_append]
  simp only [Option.some_bind]
  rw [parseNumber_decChars px.1 px.2 _ (numBoundary_litY _)]
  simp only [Option.some_bind]
  rw [expectLit_append]
  simp only [Option.some_bind]
  rw [parseNumber_decChars py.1 py.2 _ (numBoundary_litFS _)]
  simp only [Option.some_bind]
  rw [expectLit_append]
  simp only [Option.some_bind]
  rw [parseNumber_decChars pf.1 pf.2 _ (numBoundary_litColor _)]
  simp only [Option.some_bind]
  rw [expectLit_append]
  simp only [Option.some_bind]
  rw [parseStr_escape]
  simp only [Option.some_bind]
  rw [expectLit_append]
  simp only [Option.some_bind]
  rw [parseNumber_decChars a.pageNumber 0 _ (numBoundary_brace _)]
  simp only [Option.some_bind]
  rw [ratDec_val a.x px.1 px.2 (by rw [hx]), ratDec_val a.y py.1 py.2 (by rw [hy]),
    ratDec_val a.fontSize pf.1 pf.2 (by rw [hf])]
  rfl

/-! ## Collection serialization round trip -/

theorem strList_length (l : List Annot) : ∀ body, strList l = some body →
    l.length ≤ body.length + 1 := by
  induction l with
  | nil => intro body h; simp
  | cons a t ih =>
    intro body h
    cases t with
    | nil => simp
    | cons b t' =>
      unfold strList at h
      cases hx : strAnnot a with
      | none => rw [hx] at h; simp at h
      | some x =>
        cases hr : strList (b :: t') with
        | none => rw [hx, hr] at h; simp at h
        | some r' =>
          rw [hx, hr] at h
          simp only [Option.some_bind, Option.some.injEq] at h
          subst h
          have := ih r' hr
          simp only [List.length_cons, List.length_append] at this ⊢
          omega

theorem strList_head (l : List Annot) (hne : l ≠ []) : ∀ body, strList l = some body →
    ∃ t, body = '\x7b' :: t := by
  cases l with
  | nil => exact absurd rfl hne
  | cons a t =>
    intro body h
    cases t with
    | nil =>
      obtain ⟨px, py, pf, _, _, _, hcs⟩ := strAnnot_eq a body h
      subst hcs
      exact ⟨_, rfl⟩
    | cons b t' =>
      unfold strList at h
      cases hx : strAnnot a with
      | none => rw [hx] at h; simp at h
      | some x =>
        cases hr : strList (b :: t') with
        | none => rw [hx, hr] at h; simp at h
        | some r' =>
          rw [hx, hr] at h
          simp only [Option.some_bind, Option.some.injEq] at h
          subst h
          obtain ⟨px, py, pf, _, _, _, hcs⟩ := strAnnot_eq a x hx
          subst hcs
          exact ⟨_, rfl⟩

theorem parseAnnotsAux_strList : ∀ (l : List Annot) (body r : List Char) (fuel : Nat),
    l ≠ [] → strList l = some body → l.length ≤ fuel →
    parseAnnotsAux fuel (body ++ ']' :: r) = some (l, r) := by
  intro l
  induction l with
  | nil => intro body r fuel hne; exact absurd rfl hne
  | cons a t ih =>
    intro body r fuel _ h hf
    cases t with
    | nil =>
      rw [show fuel = (fuel - 1) + 1 by simp at hf; omega]
      simp only [parseAnnotsAux]
      have hb : strAnnot a = some body := h
      rw [parseAnnot_strAnnot a body (']' :: r) hb]
      rfl
    | cons b t' =>
      unfold strList at h
      cases hx : strAnnot a with
      | none => rw [hx] at h; simp at h
      | some x =>
        cases hr : strList (b :: t') with
        | none => rw [hx, hr] at h; simp at h
        | some r' =>
          rw [hx, hr] at h
          simp only [Option.some_bind, Option.some.injEq] at h
          subst h
          rw [show fuel = (fuel - 1) + 1 by simp at hf; omega]
          simp only [parseAnnotsAux]
          rw [show (x ++ ',' :: r') ++ ']' :: r = x ++ (',' :: (r' ++ ']' :: r)) by simp]
          rw [parseAnnot_strAnnot a x _ hx]
          simp only [Option.some_bind]
          rw [show parseAnnotsAux (fuel - 1) (r' ++ ']' :: r) = some (b :: t', r) from
            ih r' r (fuel - 1) (List.cons_ne_nil b t') hr (by simp at hf ⊢; omega)]
          rfl

theorem parseAnnots_encode (l : List Annot) (cs : List Char) (h : encodeAnnots l = some cs) :
    parseAnnots cs = some l := by
  unfold encodeAnnots at h
  cases hb : strList l with
  | none => rw [hb] at h; simp at h
  | some body =>
    rw [hb] at h
    simp only [Option.map, Option.some.injEq] at h
    subst h
    cases l with
    | nil =>
      have hbody : body = [] := by
        have h2 : (some ([] : List Char)) = some body := hb
        injection h2 with h3
        exact h3.symm
      subst hbody
      rfl
    | cons a t =>
      obtain ⟨bt, hbt⟩ := strList_head (a :: t) (List.cons_ne_nil a t) body hb
      subst hbt
      show parseAnnots ('[' :: ('\x7b' :: bt ++ [']'])) = some (a :: t)
      have hstep : parseAnnots ('[' :: ('\x7b' :: bt ++ [']']))
          = match parseAnnotsAux (('\x7b' :: bt ++ [']']).length + 1) ('\x7b' :: bt ++ [']']) with
            | some (l, []) => some l
            | _ => none := rfl
      rw [hstep]
      have hlen := strList_length (a :: t) ('\x7b' :: bt) hb
      rw [show ('\x7b' :: bt ++ [']'] : List Char) = ('\x7b' :: bt) ++ ']' :: [] by simp]
      rw [parseAnnotsAux_strList (a :: t) ('\x7b' :: bt) [] _ (List.cons_ne_nil a t) hb
        (by simp only [List.length_append, List.length_cons] at hlen ⊢; omega)]

/-! ## Percent-encoding round trip -/

theorem char_valid_ranges (c : Char) :
    c.toNat < 55296 ∨ (57344 ≤ c.toNat ∧ c.toNat < 1114112) := by
  rcases c.valid with h | h
  · left; exact h
  · right; exact ⟨h.1, h.2⟩

theorem pctByte_cons (b : Nat) (r : List Char) :
    pctByte b ++ r = '%' :: hexDigitU (b / 16) :: hexDigitU (b % 16) :: r := rfl

theorem readPct_pctByte (b : Nat) (hb : b < 256) (r : List Char) :
    readPct ('%' :: hexDigitU (b / 16) :: hexDigitU (b % 16) :: r) = some (b, r) := by
  simp only [readPct]
  rw [hexVal?_hexDigitU (b / 16) (by omega), hexVal?_hexDigitU (b % 16) (by omega)]
  simp only []
  rw [show b / 16 * 16 + b % 16 = b from by omega]

theorem uriDecodeAux_encChar (c : Char) (t : List Char) (fuel : Nat) :
    uriDecodeAux (fuel + 1) (uriEncodeChar c ++ t)
      = (uriDecodeAux fuel t).map (fun l => c :: l) := by
  have hval := char_valid_ranges c
  by_cases hu : uriUnres c = true
  · rw [uriEncodeChar, if_pos hu]
    simp only [List.cons_append, List.nil_append]
    have hcp : ¬(c = '%') := by
      intro h
      subst h
      exact absurd hu (by decide)
    simp only [uriDecodeAux]
    rw [if_neg hcp]
  · rw [uriEncodeChar, if_neg hu]
    by_cases h1 : c.toNat < 128
    · rw [show utf8Bytes c = [c.toNat] from by unfold utf8Bytes; rw [if_pos h1]]
      simp only [catMap, List.append_nil]
      rw [pctByte_cons]
      simp only [uriDecodeAux]
      rw [if_pos trivial]
      rw [readPct_pctByte c.toNat (by omega) t]
      simp only [Option.some_bind]
      rw [if_pos h1, Char.ofNat_toNat]
    · by_cases h2 : c.toNat < 2048
      · rw [show utf8Bytes c = [192 + c.toNat / 64, 128 + c.toNat % 64] from by
          unfold utf8Bytes; rw [if_neg h1, if_pos h2]]
        simp only [catMap, List.append_nil, List.append_assoc]
        rw [pctByte_cons]
        simp only [uriDecodeAux]
        rw [if_pos trivial]
        rw [readPct_pctByte (192 + c.toNat / 64) (by omega) _]
        simp only [Option.some_bind]
        rw [if_neg (by omega : ¬(192 + c.toNat / 64 < 128)),
          if_neg (by omega : ¬(192 + c.toNat / 64 < 192)),
          if_pos (by omega : 192 + c.toNat / 64 < 224)]
        rw [pctByte_cons]
        rw [readPct_pctByte (128 + c.toNat % 64) (by omega) t]
        simp only [Option.some_bind]
        rw [if_pos (by omega : 128 ≤ 128 + c.toNat % 64 ∧ 128 + c.toNat % 64 < 192)]
        rw [show (192 + c.toNat / 64 - 192) * 64 + (128 + c.toNat % 64 - 128) = c.toNat from by
          omega]
        rw [if_pos (by omega : 128 ≤ c.toNat), Char.ofNat_toNat]
      · by_cases h3 : c.toNat < 65536
        · rw [show utf8Bytes c
              = [224 + c.toNat / 4096, 128 + c.toNat / 64 % 64, 128 + c.toNat % 64] from by
            unfold utf8Bytes; rw [if_neg h1, if_neg h2, if_pos h3]]
          simp only [catMap, List.append_nil, List.append_assoc]
          rw [pctByte_cons]
          simp only [uriDecodeAux]
          rw [if_pos trivial]
          rw [readPct_pctByte (224 + c.toNat / 4096) (by omega) _]
          simp only [Option.some_bind]
          rw [if_neg (by omega : ¬(224 + c.toNat / 4096 < 128)),
            if_neg (by omega : ¬(224 + c.toNat / 4096 < 192)),
            if_neg (by omega : ¬(224 + c.toNat / 4096 < 224)),
            if_pos (by omega : 224 + c.toNat / 4096 < 240)]
          rw [pctByte_cons]
          rw [readPct_pctByte (128 + c.toNat / 64 % 64) (by omega) _]
          simp only [Option.some_bind]
          rw [pctByte_cons]
          rw [readPct_pctByte (128 + c.toNat % 64) (by omega) t]
          simp only [Option.some_bind]
          rw [if_pos (by omega :
            (128 ≤ 128 + c.toNat / 64 % 64 ∧ 128 + c.toNat / 64 % 64 < 192) ∧
            (128 ≤ 128 + c.toNat % 64 ∧ 128 + c.toNat % 64 < 192))]
          rw [show (224 + c.toNat / 4096 - 224) * 4096 + (128 + c.toNat / 64 % 64 - 128) * 64
              + (128 + c.toNat % 64 - 128) = c.toNat from by omega]
          rw [if_pos (by omega : 2048 ≤ c.toNat ∧ (c.toNat < 55296 ∨ 57344 ≤ c.toNat)),
            Char.ofNat_toNat]
        · rw [show utf8Bytes c
              = [240 + c.toNat / 262144, 128 + c.toNat / 4096 % 64, 128 + c.toNat / 64 % 64,
                 128 + c.toNat % 64] from by
            unfold utf8Bytes; rw [if_neg h1, if_neg h2, if_neg h3]]
          simp only [catMap, List.append_nil, List.append_assoc]
          rw [pctByte_cons]
          simp only [uriDecodeAux]
          rw [if_pos trivial]
          rw [readPct_pctByte (240 + c.toNat / 262144) (by omega) _]
          simp only [Option.some_bind]
          rw [if_neg (by omega : ¬(240 + c.toNat / 262144 < 128)),
            if_neg (by omega : ¬(240 + c.toNat / 262144 < 192)),
            if_neg (by omega : ¬(240 + c.toNat / 262144 < 224)),
            if_neg (by omega : ¬(240 + c.toNat / 262144 < 240)),
            if_pos (by omega : 240 + c.toNat / 262144 < 248)]
          rw [pctByte_cons]
          rw [readPct_pctByte (128 + c.toNat / 4096 % 64) (by omega) _]
          simp only [Option.some_bind]
          rw [pctByte_cons]
          rw [readPct_pctByte (128 + c.toNat / 64 % 64) (by omega) _]
          simp only [Option.some_bind]
          rw [pctByte_cons]
          rw [readPct_pctByte (128 + c.toNat % 64) (by omega) t]
          simp only [Option.some_bind]
          rw [if_pos (by omega :
            (128 ≤ 128 + c.toNat / 4096 % 64 ∧ 128 + c.toNat / 4096 % 64 < 192) ∧
            (128 ≤ 128 + c.toNat / 64 % 64 ∧ 128 + c.toNat / 64 % 64 < 192) ∧
            (128 ≤ 128 + c.toNat % 64 ∧ 128 + c.toNat % 64 < 192))]
          rw [show (240 + c.toNat / 262144 - 240) * 262144 + (128 + c.toNat / 4096 % 64 - 128) * 4096
              + (128 + c.toNat / 64 % 64 - 128) * 64 + (128 + c.toNat % 64 - 128) = c.toNat from by
            omega]
          rw [if_pos (by omega : 65536 ≤ c.toNat ∧ c.toNat ≤ 1114111), Char.ofNat_toNat]

theorem uriDecodeAux_encode (s : List Char) : ∀ fuel,
    uriDecodeAux (fuel + s.length + 1) (uriEncode s) = some s := by
  induction s with
  | nil => intro fuel; rfl
  | cons c t ih =>
    intro fuel
    show uriDecodeAux (fuel + (c :: t).length + 1) (uriEncodeChar c ++ uriEncode t) = _
    rw [show fuel + (c :: t).length + 1 = (fuel + t.length + 1) + 1 by simp; omega]
    rw [uriDecodeAux_encChar c (uriEncode t) (fuel + t.length + 1)]
    rw [ih fuel]
    rfl

theorem utf8Bytes_ne_nil (c : Char) : utf8Bytes c ≠ [] := by
  intro h
  simp only [utf8Bytes] at h
  split at h
  · simp at h
  · split at h
    · simp at h
    · split at h <;> simp at h

theorem uriEncodeChar_length_pos (c : Char) : 1 ≤ (uriEncodeChar c).length := by
  unfold uriEncodeChar
  split
  · simp
  · cases hb : utf8Bytes c with
    | nil => exact absurd hb (utf8Bytes_ne_nil c)
    | cons b bs => simp [catMap, pctByte]

theorem uriEncode_length_ge (s : List Char) : s.length ≤ (uriEncode s).length := by
  induction s with
  | nil => simp [uriEncode, catMap]
  | cons c t ih =>
    have h1 := uriEncodeChar_length_pos c
    show (c :: t).length ≤ (uriEncodeChar c ++ uriEncode t).length
    simp only [List.length_append, List.length_cons]
    omega

theorem uriDecode_encode (s : List Char) : uriDecode (uriEncode s) = some s := by
  unfold uriDecode
  rw [show (uriEncode s).length + 1 = ((uriEncode s).length - s.length) + s.length + 1 by
    have := uriEncode_length_ge s
    omega]
  exact uriDecodeAux_encode s _

/-! ## Export pipeline structure -/

theorem catMap_congr (f g : α → List β) (l : List α) (h : ∀ a ∈ l, f a = g a) :
    catMap f l = catMap g l := by
  induction l with
  | nil => rfl
  | cons a t ih =>
    simp only [catMap, h a (List.mem_cons_self a t)]
    rw [ih (fun x hx => h x (List.mem_cons_of_mem a hx))]

theorem catMap_filter_ne (f : Int → List β) (p : Int) (hf : f p = []) (l : List Int) :
    catMap f (l.filter (fun q => decide (q ≠ p))) = catMap f l := by
  induction l with
  | nil => rfl
  | cons q t ih =>
    simp only [decide_not] at ih ⊢
    by_cases hq : q = p
    · subst hq
      simp [List.filter_cons, catMap, hf, ih]
    · simp [List.filter_cons, hq, catMap, ih]

theorem catMap_map (g : β → γ) (f : α → List β) (l : List α) :
    (catMap f l).map g = catMap (fun a => (f a).map g) l := by
  induction l with
  | nil => rfl
  | cons a t ih => simp [catMap, List.map_append, ih]

theorem mem_pageKeys (l : List Annot) (q : Int) :
    q ∈ pageKeys l ↔ q ∈ l.map (fun a => a.pageNumber) := by
  unfold pageKeys
  rw [(List.perm_insertionSort _ _).mem_iff, List.mem_dedup]

theorem pageKeys_sorted (l : List Annot) : List.Sorted (· ≤ ·) (pageKeys l) :=
  List.sorted_insertionSort (· ≤ ·) _

theorem pageKeys_nodup (l : List Annot) : (pageKeys l).Nodup := by
  have hp := List.perm_insertionSort (· ≤ ·) ((l.map (fun a => a.pageNumber)).dedup)
  exact hp.symm.nodup (List.nodup_dedup _)

theorem pageKeys_filter (l : List Annot) (p : Int) :
    pageKeys (l.filter (fun a => decide (a.pageNumber ≠ p)))
      = (pageKeys l).filter (fun q => decide (q ≠ p)) := by
  have hs1 := pageKeys_sorted (l.filter (fun a => decide (a.pageNumber ≠ p)))
  have hs2 : List.Sorted (· ≤ ·) ((pageKeys l).filter (fun q => decide (q ≠ p))) :=
    List.Pairwise.sublist (List.filter_sublist _) (pageKeys_sorted l)
  have hn1 := pageKeys_nodup (l.filter (fun a => decide (a.pageNumber ≠ p)))
  have hn2 : ((pageKeys l).filter (fun q => decide (q ≠ p))).Nodup :=
    List.Nodup.filter _ (pageKeys_nodup l)
  have hmem : ∀ q, q ∈ pageKeys (l.filter (fun a => decide (a.pageNumber ≠ p)))
      ↔ q ∈ (pageKeys l).filter (fun q => decide (q ≠ p)) := by
    intro q
    rw [mem_pageKeys, List.mem_filter, mem_pageKeys]
    simp only [List.mem_map, List.mem_filter, decide_eq_true_eq]
    constructor
    · rintro ⟨a, ⟨hal, hap⟩, rfl⟩
      exact ⟨⟨a, hal, rfl⟩, hap⟩
    · rintro ⟨⟨a, hal, rfl⟩, hq⟩
      exact ⟨a, ⟨hal, hq⟩, rfl⟩
  exact List.eq_of_perm_of_sorted
    (List.Subperm.antisymm (hn1.subperm (fun q hq => (hmem q).mp hq))
      (hn2.subperm (fun q hq => (hmem q).mpr hq))) hs1 hs2

theorem groupFor_filter (l : List Annot) (p q : Int) (h : q ≠ p) :
    groupFor (l.filter (fun a => decide (a.pageNumber ≠ p))) q = groupFor l q := by
  unfold groupFor
  induction l with
  | nil => rfl
  | cons a t ih =>
    simp only [decide_not] at ih ⊢
    have hpq : ¬(p = q) := fun hx => h hx.symm
    by_cases hap : a.pageNumber = p
    · have hnq : ¬(a.pageNumber = q) := by rw [hap]; exact fun hx => h hx.symm
      simp [List.filter_cons, hap, hnq, hpq, ih]
    · by_cases haq : a.pageNumber = q
      · simp [List.filter_cons, hap, haq, h, hpq, ih]
      · simp [List.filter_cons, hap, haq, h, hpq, ih]

theorem cmdsForPage_filter (font : Font) (pages : List PageSize) (dims : Int → Option PageSize)
    (l : List Annot) (p q : Int) (h : q ≠ p) :
    cmdsForPage font pages dims (l.filter (fun a => decide (a.pageNumber ≠ p))) q
      = cmdsForPage font pages dims l q := by
  unfold cmdsForPage
  rw [groupFor_filter l p q h]

theorem cmdsForPage_font (bytes : List Nat) (pages : List PageSize)
    (dims : Int → Option PageSize) (annots : List Annot) (p : Int) :
    cmdsForPage .helvetica pages dims annots p
      = (cmdsForPage (.custom bytes) pages dims annots p).map (withFont .helvetica) := by
  unfold cmdsForPage
  cases pageLookup pages p with
  | none => rfl
  | some pg =>
    simp only [List.map_map]
    rfl

/-! ## The claims -/

set_option maxRecDepth 40000 in
unseal Rat.mul Rat.inv Rat.add Rat.sub in
/-- Claim C1: for captured logical dimensions (Wl, Hl) and true page size (Wp, Hp)
the export pipeline computes `pdfX = max(0, x) / Wl * Wp` and
`pdfY = Hp - ((max(0, y) + fontSize) / Hl) * Hp`; in particular, exporting the
annotation (x 10, y 20, fontSize 16, colour #ff0000, page 1) against a 1-page
600×800-point document with captured logical size 300×400 issues exactly one
draw-text command targeting (20, 728). -/
theorem c1_export_coords :
    (∀ (x y fs : ℚ) (pd pg : PageSize),
      pdfCoords x y fs pd pg
        = ((max 0 x) / pd.width * pg.width,
           pg.height - ((max 0 y) + fs) / pd.height * pg.height)) ∧
    exportCmds (.ok [0]) [⟨"1", "Hi", 10, 20, 16, "#ff0000", 1⟩] [⟨600, 800⟩]
        (fun p => if p = 1 then some ⟨300, 400⟩ else none)
      = [⟨1, "Hi", 20, 728, 16, .custom [0], some ((1, 0, 0))⟩] :=
  ⟨fun _ _ _ _ _ => rfl, by decide⟩

/-- Claim C2: for every zoom scale strictly greater than zero, converting a
logical position to screen coordinates (multiplication by the scale, the
draggable overlay position) and back (division by the scale, the drop handler)
returns the original position exactly. -/
theorem c2_screen_logical_roundtrip (x y scale : ℚ) (h : 0 < scale) :
    logicalFromScreen (screenFromLogical (x, y) scale) scale = (x, y) := by
  show (x * scale / scale, y * scale / scale) = (x, y)
  rw [mul_div_cancel_right₀ x (ne_of_gt h), mul_div_cancel_right₀ y (ne_of_gt h)]

/-- Witness for claim C2 at scale 2 and position (3, 5). -/
theorem c2_screen_logical_roundtrip_witness :
    logicalFromScreen (screenFromLogical (3, 5) 2) 2 = (3, 5) :=
  c2_screen_logical_roundtrip 3 5 2 (by norm_num)

/-- Claim C3: for every collection the URL codec can represent (every collection
of real JavaScript values: the encoder succeeds exactly when every numeric field
has a finite decimal print, which every double has), decoding the encoded
URL-safe string returns the collection unchanged, fields and types preserved. -/
theorem c3_codec_roundtrip (l : List Annot) (cs : List Char)
    (h : encodeParam l = some cs) : decodeParam (String.mk cs) = l := by
  unfold encodeParam at h
  cases he : encodeAnnots l with
  | none => rw [he] at h; simp at h
  | some js =>
    rw [he] at h
    simp only [Option.map, Option.some.injEq] at h
    subst h
    unfold decodeParam
    rw [show (String.mk (uriEncode js)).data = uriEncode js from rfl]
    rw [uriDecode_encode js]
    simp only []
    rw [parseAnnots_encode l js he]

set_option maxRecDepth 40000 in
unseal Rat.mul Rat.inv Rat.add Rat.sub in
/-- Witness for claim C3 on a one-element collection. -/
theorem c3_codec_roundtrip_witness :
    decodeParam (String.mk ((encodeParam [⟨"1", "Hi", 10, 20, 16, "#ff0000", 1⟩]).getD []))
      = [⟨"1", "Hi", 10, 20, 16, "#ff0000", 1⟩] :=
  c3_codec_roundtrip _ _ (by decide)

unseal Rat.mul Rat.inv Rat.add Rat.sub in
/-- Claim C4 counterexample: the context-menu creation path stores the computed
position without clamping — with the pointer at client (0, 0) and the page
rectangle at (10, 10) at scale 1 (as a keyboard-invoked context-menu event
produces), the stored annotation has x = y = −10 < 0, so the collection-wide
non-negativity invariant claimed for every creation/update path fails. -/
theorem c4_clamp_counterexample :
    (handleContextMenu 7 0 0 10 10 1 16 "#000000" 1 []).map (fun a => (a.x, a.y))
      = [((-10 : ℚ), (-10 : ℚ))] ∧ (-10 : ℚ) < 0 := by
  constructor
  · decide
  · norm_num

/-- Claim C4 (amended): the clamping holds on the paths that have it — the
drag-stop update stores `max 0` of the converted position, and the export draw
command clamps both coordinates; the context-menu creation path stores the raw
computed position. -/
theorem c4_clamp_amended :
    (∀ dataX dataY scale : ℚ,
      0 ≤ (dragStopPos dataX dataY scale).1 ∧ 0 ≤ (dragStopPos dataX dataY scale).2) ∧
    (∀ (font : Font) (pg pd : PageSize) (p : Int) (a : Annot),
      0 ≤ (drawCmdFor font pg pd p a).x ∧ 0 ≤ (drawCmdFor font pg pd p a).y) :=
  ⟨fun _ _ _ => ⟨le_max_left 0 _, le_max_left 0 _⟩,
   fun _ _ _ _ _ => ⟨le_max_left 0 _, le_max_left 0 _⟩⟩

/-- Claim C5 counterexample: ids come from `Date.now().toString()`, so two
creations within the same millisecond (here both at timestamp 5) produce two
distinct annotations carrying the identical id "5". -/
theorem c5_id_counterexample :
    ((addAnnot 5 "" 16 "#000000" 1 (addAnnot 5 "Hello" 16 "#000000" 1 [])).map
        (fun a => a.id) = ["5", "5"]) ∧
    ((addAnnot 5 "" 16 "#000000" 1 (addAnnot 5 "Hello" 16 "#000000" 1 [])).map
        (fun a => a.text) = ["Hello", "テキスト"]) := by
  constructor <;> decide

/-- Claim C5 (amended): creations at distinct millisecond timestamps do get
distinct ids (decimal printing of the timestamp is injective); only
same-millisecond creations collide. -/
theorem c5_id_amended (t t' : Nat) (h : t ≠ t') : mkAnnotId t ≠ mkAnnotId t' :=
  fun he => h (mkAnnotId_inj t t' he)

/-- Witness for the amended claim C5 at timestamps 1 and 2. -/
theorem c5_id_amended_witness : mkAnnotId 1 ≠ mkAnnotId 2 :=
  c5_id_amended 1 2 (by decide)

unseal Rat.mul Rat.inv Rat.add Rat.sub in
/-- Claim C6 counterexample: `addAnnotation` performs no validation at all — with
fontSize 999 (outside [8, 72]) and pageNumber 0 (not a positive integer) the
record is appended unchanged; no ValidationError exists anywhere in the code. -/
theorem c6_add_counterexample :
    addAnnot 3 "Hi" 999 "#000000" 0 []
      = [⟨"3", "Hi", 100, 100, 999, "#000000", 0⟩] := by decide

/-- Claim C6 (amended): add appends unconditionally — the collection grows by
exactly the new record, fontSize and pageNumber stored exactly as supplied,
with no failure path and no clamping. -/
theorem c6_add_amended (now : Nat) (newText : String) (fs : ℚ) (col : String)
    (pn : Int) (annots : List Annot) :
    (addAnnot now newText fs col pn annots).length = annots.length + 1 ∧
    (addAnnot now newText fs col pn annots).drop annots.length
      = [⟨mkAnnotId now, (if jsTrim newText = "" then placeholderText else jsTrim newText),
          100, 100, fs, col, pn⟩] := by
  unfold addAnnot
  constructor
  · simp
  · exact List.drop_left _ _

/-- Claim C7: an annotation group whose page number resolves to no page object
is skipped non-fatally — the emitted draw commands are exactly those of the
collection with that group removed, so the output document is unchanged for the
group and the remaining groups are still processed. -/
theorem c7_page_skip (fetchEmbed : Except String (List Nat)) (annots : List Annot)
    (pages : List PageSize) (dims : Int → Option PageSize) (p : Int)
    (hp : pageLookup pages p = none) :
    exportCmds fetchEmbed annots pages dims
      = exportCmds fetchEmbed (annots.filter (fun a => decide (a.pageNumber ≠ p)))
          pages dims := by
  unfold exportCmds
  have hzero : cmdsForPage (chooseFont fetchEmbed) pages dims annots p = [] := by
    unfold cmdsForPage
    rw [hp]
  rw [pageKeys_filter]
  rw [← catMap_filter_ne (cmdsForPage (chooseFont fetchEmbed) pages dims annots) p hzero
    (pageKeys annots)]
  apply catMap_congr
  intro q hq
  have hqp : q ≠ p := by
    simp only [List.mem_filter, decide_eq_true_eq] at hq
    exact hq.2
  exact (cmdsForPage_filter _ _ _ annots p q hqp).symm

/-- Witness for claim C7: annotations on pages 1 and 5 of a one-page document;
removing the page-5 group leaves the export commands unchanged. -/
theorem c7_page_skip_witness :
    exportCmds (.ok []) [⟨"1", "A", 1, 1, 8, "#000000", 1⟩, ⟨"2", "B", 1, 1, 8, "#000000", 5⟩]
        [⟨600, 800⟩] (fun _ => none)
      = exportCmds (.ok [])
          ([⟨"1", "A", 1, 1, 8, "#000000", 1⟩, ⟨"2", "B", 1, 1, 8, "#000000", 5⟩].filter
            (fun a => decide (a.pageNumber ≠ 5)))
          [⟨600, 800⟩] (fun _ => none) :=
  c7_page_skip _ _ _ _ 5 (by decide)

/-- Claim C8: a failure of the remote font fetch/embed never aborts the export —
 the pipeline falls back to the built-in Helvetica and draws exactly the same
annotations: the command sequence equals the success-case sequence with every
command's font replaced by the fallback. -/
theorem c8_font_fallback (reason : String) (bytes : List Nat) (annots : List Annot)
    (pages : List PageSize) (dims : Int → Option PageSize) :
    exportCmds (.error reason) annots pages dims
      = (exportCmds (.ok bytes) annots pages dims).map (withFont .helvetica) := by
  unfold exportCmds chooseFont
  rw [catMap_map]
  exact catMap_congr _ _ _ (fun q _ => cmdsForPage_font bytes pages dims annots q)

/-- Claim C9: for every malformed annotations parameter value — URI decoding
throws, or JSON reading fails — decoding yields the empty collection; the model
decode is a total function, so no exception escapes the boundary. -/
theorem c9_malformed_decode (s : String)
    (h : (uriDecode s.data).bind parseAnnots = none) : decodeParam s = [] := by
  unfold decodeParam
  cases hu : uriDecode s.data with
  | none => rfl
  | some cs =>
    rw [hu] at h
    simp only [Option.some_bind] at h
    simp only []
    rw [h]

/-- Witness for claim C9 on the malformed value "%". -/
theorem c9_malformed_decode_witness : decodeParam "%" = [] :=
  c9_malformed_decode "%" (by decide)

set_option maxRecDepth 40000 in
unseal Rat.mul Rat.inv Rat.add Rat.sub in
/-- Claim C10: the draw call targets `(max 0 pdfX, max 0 pdfY)` — the clamped
coordinates of the §4.2 formula — and when the formula yields a negative pdfY
(annotation y 500, fontSize 16 against captured height 400 on an 800-point
page gives pdfY = −232) the text is drawn at coordinate 0. -/
theorem c10_draw_clamp :
    (∀ (font : Font) (pg pd : PageSize) (p : Int) (a : Annot),
      (drawCmdFor font pg pd p a).x = max 0 (pdfCoords a.x a.y a.fontSize pd pg).1 ∧
      (drawCmdFor font pg pd p a).y = max 0 (pdfCoords a.x a.y a.fontSize pd pg).2) ∧
    ((pdfCoords 10 500 16 ⟨300, 400⟩ ⟨600, 800⟩).2 = -232 ∧
      (drawCmdFor .helvetica ⟨600, 800⟩ ⟨300, 400⟩ 1 ⟨"1", "X", 10, 500, 16, "#000000", 1⟩).y
        = 0) :=
  ⟨fun _ _ _ _ _ => ⟨rfl, rfl⟩, by constructor <;> decide⟩
